import Mathlib

/-!
Verification of the hook-based tracking utility (`padertorch/contrib/cb/track.py`).

The development shallowly embeds the tracking machinery:

* `NNModule` models a `torch.nn.Module` tree: a kind identifier (the Python
  class of the module), the element counts of the module's own parameters, and
  the ordered list of child modules.
* `applyFiltered` mirrors the inner `apply_filtered` function of `track`,
  which walks the tree and decides, for every visited node, whether the node is
  hooked as a leaf.  Each emitted entry carries a ghost path (the child-index
  route from the root) used only to state theorems.
* `execTracked` models one forward execution of the instrumented tree: every
  hooked node fires the registered `pre_hook` (constructing a tracker from
  `len(all_trackers)`, `len(tracker_stack)` and the leaf flag) on entry and the
  forward `hook` (popping the tracker stack) on exit.  Descendants of a node
  whose kind is in `leaf_types` carry no hooks, so their execution does not
  touch the session state.
* Further definitions embed the `track` context manager's hook bookkeeping,
  `tracker_list`, `ShapeTracker.get_shape`, `ParameterTracker.post` and
  `_IDBasedWeakSet`.
-/

/-- A `torch.nn.Module` tree: class/kind identifier, the element counts
(`numel`) of the module's own (direct) parameters, and the ordered children. -/
inductive NNModule where
  | mk (kind : Nat) (ownParams : List Nat) (children : List NNModule)

/-- The Python class of the module (`module.__class__`). -/
def NNModule.kindOf : NNModule → Nat
  | .mk k _ _ => k

/-- `module.children()`: the ordered direct child modules. -/
def NNModule.childrenOf : NNModule → List NNModule
  | .mk _ _ cs => cs

/-- The element counts of the module's own (direct) parameters:
`module.parameters(recurse=False)` mapped through `numel`. -/
def NNModule.ownParamsOf : NNModule → List Nat
  | .mk _ ps _ => ps

mutual
/-- `module.parameters(recurse=True)` mapped through `numel`: the module's own
parameters followed by the parameters of all submodules, recursively. -/
def NNModule.allParams : NNModule → List Nat
  | .mk _ ps cs => ps ++ NNModule.allParamsList cs

def NNModule.allParamsList : List NNModule → List Nat
  | [] => []
  | c :: cs => NNModule.allParams c ++ NNModule.allParamsList cs
end

/-- `module.parameters(recurse=...)` mapped through `numel`. -/
def NNModule.parameters (m : NNModule) (recurse : Bool) : List Nat :=
  if recurse then m.allParams else m.ownParamsOf

/-- Mirrors `ParameterTracker.post`:
`self.num_params = sum([p.numel() for p in module.parameters(recurse=self.leaf)])`. -/
def ParameterTracker.num_params (m : NNModule) (leaf : Bool) : Nat :=
  (m.parameters leaf).sum

/-- Follows the claim's words (for comparison with the source behaviour): if
the leaf flag is true count only the node's own parameters, otherwise recurse
into submodules' parameters. -/
def ParameterTracker.num_params_claim (m : NNModule) (leaf : Bool) : Nat :=
  if leaf then m.ownParamsOf.sum else m.allParams.sum

mutual
/-- Mirrors `apply_filtered` inside `track`: for every child, either register
the child as a forced leaf (its class is in `leaf_types`; its subtree is not
traversed) or recurse into it; finally register the node itself with
`is_leaf = (no child was seen)`.  Each entry `(path, module, leaf)` records the
ghost path from the root together with the two arguments of the `fn` call
(`register_hook`), in call order. -/
def applyFiltered (lt : List Nat) (path : List Nat) : NNModule → List (List Nat × NNModule × Bool)
  | .mk k ps cs =>
    applyFilteredChildren lt path 0 cs ++ [(path, NNModule.mk k ps cs, cs.isEmpty)]

def applyFilteredChildren (lt : List Nat) (path : List Nat) (i : Nat) :
    List NNModule → List (List Nat × NNModule × Bool)
  | [] => []
  | c :: rest =>
    (if c.kindOf ∈ lt then [(path ++ [i], c, true)] else applyFiltered lt (path ++ [i]) c)
      ++ applyFilteredChildren lt path (i + 1) rest
end

/-- Whether the node reached from `m` by the child-index path `p` gets hooks
registered by `apply_filtered lt` started at `m`.  The empty path (the root of
the traversal) is always hooked; a child whose kind is in `lt` is hooked but
its subtree is not; other children are traversed recursively. -/
def isHooked (lt : List Nat) : List Nat → NNModule → Bool
  | [], _ => true
  | i :: rest, m =>
    match m.childrenOf.get? i with
    | none => false
    | some c => if c.kindOf ∈ lt then rest.isEmpty else isHooked lt rest c

/-- The ghost paths of the strict ancestors of the node at path `p`. -/
def strictAncestorPaths (p : List Nat) : List (List Nat) :=
  (List.range p.length).map (fun k => p.take k)

/-- The number of strict ancestors of the node at path `p` that themselves get
hooks registered (are not filtered out of the traversal). -/
def numInstrumentedStrictAncestors (lt : List Nat) (net : NNModule) (p : List Nat) : Nat :=
  (strictAncestorPaths p).countP (fun q => isHooked lt q net)

/-- One tracker instance constructed by the generic `tracker_factory` call
`tracker_factory(len(all_trackers), len(tracker_stack), leaf, shared_dict)`.
The `path` field is ghost data (the child-index route from the root of the
session) used only to state theorems; it does not exist in the source. -/
structure TrackerInfo where
  count : Nat
  depth : Nat
  leaf : Bool
  path : List Nat
deriving DecidableEq

/-- One interceptor invocation: `pre` when the registered `pre_hook` of the
node at `path` runs (`t` is the tracker it constructs), `post` when the
registered forward `hook` of the node at `path` runs (`t` is the tracker it
pops from the call stack). -/
inductive HookEvent where
  | pre (path : List Nat) (t : TrackerInfo)
  | post (path : List Nat) (t : TrackerInfo)
deriving DecidableEq

/-- The mutable state of one `track` session: the flat result list
`all_trackers`, the call stack `tracker_stack` (head = top), and the ghost
trace of interceptor invocations. -/
structure SessionState where
  all_trackers : List TrackerInfo
  tracker_stack : List TrackerInfo
  events : List HookEvent
deriving DecidableEq

/-- Mirrors `pre_hook` inside `register_hook`: construct a tracker via
`tracker_factory(len(all_trackers), len(tracker_stack), leaf, shared_dict)`,
call its `pre` (recorded as an event), push it on `tracker_stack`, append it to
`all_trackers`. -/
def pre_hook (path : List Nat) (leaf : Bool) (st : SessionState) : SessionState :=
  let tracker : TrackerInfo :=
    { count := st.all_trackers.length
      depth := st.tracker_stack.length
      leaf := leaf
      path := path }
  { all_trackers := st.all_trackers ++ [tracker]
    tracker_stack := tracker :: st.tracker_stack
    events := st.events ++ [HookEvent.pre path tracker] }

/-- Mirrors `hook` inside `register_hook`: `tracker = tracker_stack.pop()`
followed by `tracker.post(module, input, output)` (recorded as an event).
An empty stack would be an `IndexError` in the source; it cannot occur in the
executions modelled here, and the branch returns the state unchanged. -/
def forward_hook (path : List Nat) (st : SessionState) : SessionState :=
  match st.tracker_stack with
  | [] => st
  | t :: rest =>
    { st with
      tracker_stack := rest
      events := st.events ++ [HookEvent.post path t] }

/-- One interceptor firing of one forward execution, in execution order: on
entry of the hooked node at `path` its registered `pre_hook` runs (with the
leaf flag fixed at registration time); on exit its registered forward `hook`
runs.  Nodes without hooks (strict descendants of `leaf_types` nodes)
contribute no firings. -/
inductive Step where
  | enter (path : List Nat) (leaf : Bool)
  | exit (path : List Nat)
deriving DecidableEq

mutual
/-- The interceptor firings produced by one forward execution of a
hooked-and-traversed node (the root of the session, or any traversed child):
its `pre_hook` fires with `leaf = (no children)`, its children execute in
order, then its forward `hook` fires. -/
def execSteps (lt : List Nat) (path : List Nat) : NNModule → List Step
  | .mk _ _ cs =>
    Step.enter path cs.isEmpty :: (stepsChildren lt path 0 cs ++ [Step.exit path])

/-- The interceptor firings of the children of a traversed node, executed in
order, child `j` at ghost path `path ++ [i + j]`.  A child whose kind is in
`lt` is hooked with `leaf = True` and its own subtree runs without any hooks
(no firings from below it); any other child is itself traversed. -/
def stepsChildren (lt : List Nat) (path : List Nat) (i : Nat) : List NNModule → List Step
  | [] => []
  | c :: rest =>
    (if c.kindOf ∈ lt then [Step.enter (path ++ [i]) true, Step.exit (path ++ [i])]
     else execSteps lt (path ++ [i]) c)
      ++ stepsChildren lt path (i + 1) rest
end

/-- Folds the session state over the interceptor firings of one execution:
each `enter` runs `pre_hook`, each `exit` runs the forward `hook`. -/
def runSteps : List Step → SessionState → SessionState
  | [], st => st
  | Step.enter path leaf :: rest, st => runSteps rest (pre_hook path leaf st)
  | Step.exit path :: rest, st => runSteps rest (forward_hook path st)

/-- One `track` session over `net` with `leaf_types = lt`, the instrumented
tree executed exactly once starting from the empty session state. -/
def runSession (lt : List Nat) (net : NNModule) : SessionState :=
  runSteps (execSteps lt [] net) { all_trackers := [], tracker_stack := [], events := [] }

/-- The number of `pre`-interceptor invocations in a trace. -/
def countPre (es : List HookEvent) : Nat :=
  es.countP (fun e => match e with | .pre _ _ => true | .post _ _ => false)

/-- The number of `post`-interceptor invocations in a trace. -/
def countPost (es : List HookEvent) : Nat :=
  es.countP (fun e => match e with | .pre _ _ => false | .post _ _ => true)

/-- The handles returned by `register_forward_pre_hook` / `register_forward_hook`:
the set of currently attached interceptor handles plus a fresh-id counter. -/
structure HookStore where
  attached : List Nat
  next_id : Nat
deriving DecidableEq

/-- Attaches `n` fresh interceptor handles (two per hooked module in the
source: `hooks.append(module.register_forward_pre_hook(pre_hook))` and
`hooks.append(module.register_forward_hook(hook))`), returning the `hooks`
list. -/
def attachHooks : Nat → HookStore → List Nat × HookStore
  | 0, st => ([], st)
  | n + 1, st =>
    let h := st.next_id
    let r := attachHooks n { attached := st.attached ++ [h], next_id := st.next_id + 1 }
    (h :: r.1, r.2)

/-- `h.remove()`: detaches one interceptor handle. -/
def HookStore.removeHook (st : HookStore) (h : Nat) : HookStore :=
  { st with attached := st.attached.filter (fun x => x ≠ h) }

/-- Mirrors the body of the `track` context manager: register two interceptors
per entry produced by `apply_filtered`, run the enclosed computation `body`
(which either completes normally or raises), and in the `finally` block remove
every registered hook on both exit paths, re-raising an exception unchanged. -/
def track_run {ε α : Type} (lt : List Nat) (net : NNModule) (body : Except ε α)
    (st : HookStore) : Except ε α × HookStore :=
  let reg := attachHooks (2 * (applyFiltered lt [] net).length) st
  match body with
  | .ok a => (.ok a, reg.1.foldl HookStore.removeHook reg.2)
  | .error e => (.error e, reg.1.foldl HookStore.removeHook reg.2)

/-- The two session lists touched by `pre_hook`, for the fallible variant. -/
structure HookState (τ : Type) where
  all_trackers : List τ
  tracker_stack : List τ
deriving DecidableEq

/-- Mirrors `pre_hook` when `tracker_factory` or `tracker.pre` may raise: the
tracker is constructed first, then its `pre` runs, and only afterwards is it
pushed on `tracker_stack` and appended to `all_trackers`.  The second component
is the exception, if any escaped. -/
def pre_hook_fallible {τ ε : Type} (tracker_factory : Nat → Nat → Bool → Except ε τ)
    (preFn : τ → Except ε Unit) (leaf : Bool) (st : HookState τ) : HookState τ × Option ε :=
  match tracker_factory st.all_trackers.length st.tracker_stack.length leaf with
  | .error e => (st, some e)
  | .ok tracker =>
    match preFn tracker with
    | .error e => (st, some e)
    | .ok _ =>
      ({ all_trackers := st.all_trackers ++ [tracker]
         tracker_stack := tracker :: st.tracker_stack }, none)

/-- One tracker kind wrapped by `tracker_list`: its factory and its `pre` and
`post` methods, over instance states `σ`, sub-dicts `δ`, modules `μ`,
inputs `ι` and outputs `ω`. -/
structure TrackerKind (σ δ μ ι ω : Type) where
  init : Nat → Nat → Bool → δ → σ
  pre : σ → μ → ι → σ
  post : σ → μ → ι → ω → σ

/-- Python `dict.setdefault(k, v)`: return the stored value if the key is
present, otherwise insert `v` (at the end, per insertion order) and return it. -/
def Dict.setdefault {δ : Type} (d : List (Nat × δ)) (k : Nat) (v : δ) : δ × List (Nat × δ) :=
  match d.lookup k with
  | some w => (w, d)
  | none => (v, d ++ [(k, v)])

/-- Mirrors `TrackerList.__init__` from position `i` on: for each remaining
factory, in registration order, take the positional sub-slot
`shared_dict.setdefault(i, {})` (a fresh empty dict `d0` when the slot is
absent) and build the wrapped instance with it. -/
def trackerListInitFrom {σ δ μ ι ω : Type} (d0 : δ) (count depth : Nat) (leaf : Bool) :
    Nat → List (TrackerKind σ δ μ ι ω) → List (Nat × δ) → List σ × List (Nat × δ)
  | _, [], sd => ([], sd)
  | i, tf :: tfs, sd =>
    let s := Dict.setdefault sd i d0
    let inst := tf.init count depth leaf s.1
    let rest := trackerListInitFrom d0 count depth leaf (i + 1) tfs s.2
    (inst :: rest.1, rest.2)

/-- `TrackerList(count, depth, leaf, shared_dict).instances` together with the
resulting contents of `shared_dict`. -/
def trackerListInit {σ δ μ ι ω : Type} (d0 : δ) (tfs : List (TrackerKind σ δ μ ι ω))
    (count depth : Nat) (leaf : Bool) (sd : List (Nat × δ)) : List σ × List (Nat × δ) :=
  trackerListInitFrom d0 count depth leaf 0 tfs sd

/-- `TrackerList.pre`: `for i in self.instances: i.pre(module, input)`, in
registration order. -/
def trackerListPre {σ δ μ ι ω : Type} (tfs : List (TrackerKind σ δ μ ι ω)) (insts : List σ)
    (m : μ) (inp : ι) : List σ :=
  List.zipWith (fun tf s => tf.pre s m inp) tfs insts

/-- `TrackerList.post`: `for i in self.instances: i.post(module, input, output)`,
in registration order. -/
def trackerListPost {σ δ μ ι ω : Type} (tfs : List (TrackerKind σ δ μ ι ω)) (insts : List σ)
    (m : μ) (inp : ι) (out : ω) : List σ :=
  List.zipWith (fun tf s => tf.post s m inp out) tfs insts

/-- `TrackerList.__getitem__`: positional lookup into `self.instances`. -/
def trackerListGet {σ : Type} (insts : List σ) (i : Nat) (h : i < insts.length) : σ :=
  insts.get ⟨i, h⟩

/-- A Python value as passed through `ShapeTracker.get_shape`: a tensor (whose
`.shape` is a list of dimension sizes, empty for a 0-dim tensor), a plain
object without a `shape` attribute, a tuple, a list, or a dict keyed here by
naturals. -/
inductive PyVal where
  | tensor (shape : List Nat)
  | plain
  | tup (xs : List PyVal)
  | lst (xs : List PyVal)
  | dct (xs : List (Nat × PyVal))

/-- A non-`None` result of `get_shape`: `list(obj.shape)`, or a rebuilt tuple,
list, or dict of results. -/
inductive ShapeRes where
  | dims (s : List Nat)
  | tup (xs : List ShapeRes)
  | lst (xs : List ShapeRes)
  | dct (xs : List (Nat × ShapeRes))

/-- Python truthiness of a non-`None` `get_shape` result: a container is truthy
iff non-empty. -/
def ShapeRes.isTruthy : ShapeRes → Bool
  | .dims s => !s.isEmpty
  | .tup xs => !xs.isEmpty
  | .lst xs => !xs.isEmpty
  | .dct xs => !xs.isEmpty

/-- Python truthiness of a `get_shape` result (`None` is falsy). -/
def pyTruthy : Option ShapeRes → Bool
  | none => false
  | some s => s.isTruthy

/-- `filter(None, results)`: keep exactly the truthy elements. -/
def keepTruthy (l : List (Option ShapeRes)) : List ShapeRes :=
  l.filterMap (fun o => if pyTruthy o then o else none)

mutual
/-- Mirrors `ShapeTracker.get_shape`: tuples and lists are rebuilt from
`filter(None, [get_shape(e) for e in obj])`; dicts keep `k: shape` for each
value whose shape is not `None`; any other object resolves to `list(obj.shape)`
or, when the `shape` attribute is missing (`AttributeError`), to `None`. -/
def getShape : PyVal → Option ShapeRes
  | .tensor s => some (.dims s)
  | .plain => none
  | .tup xs => some (.tup (keepTruthy (getShapeList xs)))
  | .lst xs => some (.lst (keepTruthy (getShapeList xs)))
  | .dct xs => some (.dct (getShapeDict xs))

def getShapeList : List PyVal → List (Option ShapeRes)
  | [] => []
  | x :: xs => getShape x :: getShapeList xs

def getShapeDict : List (Nat × PyVal) → List (Nat × ShapeRes)
  | [] => []
  | (k, v) :: xs =>
    match getShape v with
    | none => getShapeDict xs
    | some s => (k, s) :: getShapeDict xs
end

mutual
/-- Follows the claim's words (for comparison with the source behaviour):
identical to `getShape` except that sequence results drop exactly the
elements that resolved to "no shape" (`None`), keeping every element that has
a shape. -/
def getShapeClaim : PyVal → Option ShapeRes
  | .tensor s => some (.dims s)
  | .plain => none
  | .tup xs => some (.tup (getShapeClaimList xs))
  | .lst xs => some (.lst (getShapeClaimList xs))
  | .dct xs => some (.dct (getShapeClaimDict xs))

def getShapeClaimList : List PyVal → List ShapeRes
  | [] => []
  | x :: xs =>
    match getShapeClaim x with
    | none => getShapeClaimList xs
    | some s => s :: getShapeClaimList xs

def getShapeClaimDict : List (Nat × PyVal) → List (Nat × ShapeRes)
  | [] => []
  | (k, v) :: xs =>
    match getShapeClaim v with
    | none => getShapeClaimDict xs
    | some s => (k, s) :: getShapeClaimDict xs
end

mutual
/-- The amended shape resolution, written independently of `getShape`:
sequence results drop exactly the elements whose resolved shape is falsy
(`None`, an empty tensor shape, or an empty rebuilt container), while mapping
results omit exactly the `None`-resolved values. -/
def getShapeAmended : PyVal → Option ShapeRes
  | .tensor s => some (.dims s)
  | .plain => none
  | .tup xs => some (.tup (getShapeAmendedList xs))
  | .lst xs => some (.lst (getShapeAmendedList xs))
  | .dct xs => some (.dct (getShapeAmendedDict xs))

def getShapeAmendedList : List PyVal → List ShapeRes
  | [] => []
  | x :: xs =>
    match getShapeAmended x with
    | none => getShapeAmendedList xs
    | some s =>
      if s.isTruthy then s :: getShapeAmendedList xs else getShapeAmendedList xs

def getShapeAmendedDict : List (Nat × PyVal) → List (Nat × ShapeRes)
  | [] => []
  | (k, v) :: xs =>
    match getShapeAmended v with
    | none => getShapeAmendedDict xs
    | some s => (k, s) :: getShapeAmendedDict xs
end

/-- A Python object observed by the identity set: `ident` models `id(object)`
(the address, reusable after reclamation), `serial` distinguishes distinct
objects across identity reuse.  Two values are the same object (`is`) iff they
are equal. -/
structure PyObj where
  ident : Nat
  serial : Nat
deriving DecidableEq

/-- Python dict assignment `d[k] = v`: overwrite in place if the key is
present, otherwise append. -/
def dictSet (d : List (Nat × PyObj)) (k : Nat) (v : PyObj) : List (Nat × PyObj) :=
  if (d.lookup k).isSome then
    d.map (fun kv => if kv.1 = k then (k, v) else kv)
  else d ++ [(k, v)]

/-- Calling a weak reference: the referent while it is alive, else `None`.
Liveness is supplied by the ambient heap as `live`. -/
def weakref_deref (live : PyObj → Bool) (x : PyObj) : Option PyObj :=
  if live x then some x else none

/-- `_IDBasedWeakSet`: a map from object identity to a weak reference. -/
structure IDBasedWeakSet where
  data : List (Nat × PyObj)
deriving DecidableEq

/-- `_IDBasedWeakSet.add`: raises `ValueError` on `None`, otherwise stores
`self.data[id(item)] = weakref.ref(item)`. -/
def IDBasedWeakSet.add (s : IDBasedWeakSet) (item : Option PyObj) :
    Except Unit IDBasedWeakSet :=
  match item with
  | none => .error ()
  | some x => .ok ⟨dictSet s.data x.ident x⟩

/-- The successful branch of `add` on a (non-`None`) object. -/
def IDBasedWeakSet.addOk (s : IDBasedWeakSet) (x : PyObj) : IDBasedWeakSet :=
  ⟨dictSet s.data x.ident x⟩

/-- `_IDBasedWeakSet.__init__(items)`: add every item in order. -/
def IDBasedWeakSet.ofItems (items : List PyObj) : IDBasedWeakSet :=
  items.foldl IDBasedWeakSet.addOk ⟨[]⟩

/-- `_IDBasedWeakSet.__contains__`: if `id(item)` is a key, call the stored
weak reference; a reclaimed referent means absent, otherwise membership holds
exactly when the referent `is` the queried object. -/
def IDBasedWeakSet.containsObj (live : PyObj → Bool) (s : IDBasedWeakSet) (item : PyObj) :
    Bool :=
  match s.data.lookup item.ident with
  | none => false
  | some stored =>
    match weakref_deref live stored with
    | none => false
    | some r => r == item

/-- The doctest tree of `track`:
`Sequential(Linear(3, 1000), ReLU(), Sequential(Linear(1000, 2), ReLU()))`,
with kinds `0 = Sequential`, `1 = Linear`, `2 = ReLU` and each `Linear`
carrying its weight and bias element counts. -/
def demoNet : NNModule :=
  .mk 0 [] [.mk 1 [3000, 1000] [], .mk 2 [] [],
            .mk 0 [] [.mk 1 [2000, 2] [], .mk 2 [] []]]

/-- Two concrete tracker kinds over natural-number states, used to evaluate
the combinator on explicit inputs. -/
def demoKinds : List (TrackerKind Nat Nat Nat Nat Nat) :=
  [⟨fun count _ _ sub => count + sub, fun s _ _ => s, fun s _ _ _ => s⟩,
   ⟨fun _ depth _ sub => depth + sub, fun s m inp => s + m + inp, fun s _ _ out => s + out⟩]

/-! ## Theorems -/

theorem allParamsList_eq_flatten (cs : List NNModule) :
    NNModule.allParamsList cs = (cs.map NNModule.allParams).flatten := by
  induction cs with
  | nil => rfl
  | cons c cs ih => simp [NNModule.allParamsList, ih]

/-- Claim C3, counterexample: on a node with a parameter-free body and one
submodule holding a 5-element parameter, a tracker with `leaf = true` counts
the submodule's parameters (the source passes `recurse=self.leaf`), while the
claim says it counts only the node's own parameters. -/
theorem parameter_tracker_leaf_cex :
    ParameterTracker.num_params (NNModule.mk 0 [] [NNModule.mk 1 [5] []]) true ≠
      ParameterTracker.num_params_claim (NNModule.mk 0 [] [NNModule.mk 1 [5] []]) true := by
  decide

/-- Claim C3 (amended): `ParameterTracker.post` sums element counts over
`module.parameters(recurse=self.leaf)`: when the tracker's leaf flag is true it
recurses, summing the node's own parameters and those of all submodules; when
the flag is false it sums only the node's own parameters. -/
theorem parameter_tracker_post_sums (m : NNModule) :
    ParameterTracker.num_params m true
        = m.ownParamsOf.sum + ((m.childrenOf.map NNModule.allParams).map List.sum).sum ∧
      ParameterTracker.num_params m false = m.ownParamsOf.sum := by
  constructor
  · cases m with
    | mk k ps cs =>
      simp [ParameterTracker.num_params, NNModule.parameters, NNModule.allParams,
        NNModule.ownParamsOf, NNModule.childrenOf, allParamsList_eq_flatten,
        List.sum_flatten]
  · cases m with
    | mk k ps cs =>
      simp [ParameterTracker.num_params, NNModule.parameters, NNModule.ownParamsOf]

mutual
theorem applyFiltered_classify (lt : List Nat) (path : List Nat) (m : NNModule) :
    ∀ e ∈ applyFiltered lt path m,
      (e.1 = path ∧ e.2.1 = m ∧ e.2.2 = m.childrenOf.isEmpty) ∨
        (path.length < e.1.length ∧
          e.2.2 = (e.2.1.childrenOf.isEmpty || decide (e.2.1.kindOf ∈ lt))) := by
  match m with
  | .mk k ps cs =>
    intro e he
    rw [applyFiltered] at he
    rcases List.mem_append.mp he with h | h
    · exact Or.inr (applyFilteredChildren_classify lt path 0 cs e h)
    · simp only [List.mem_singleton] at h
      subst h
      exact Or.inl ⟨rfl, rfl, rfl⟩

theorem applyFilteredChildren_classify (lt : List Nat) (path : List Nat) (i : Nat)
    (cs : List NNModule) :
    ∀ e ∈ applyFilteredChildren lt path i cs,
      path.length < e.1.length ∧
        e.2.2 = (e.2.1.childrenOf.isEmpty || decide (e.2.1.kindOf ∈ lt)) := by
  match cs with
  | [] => intro e he; simp [applyFilteredChildren] at he
  | c :: rest =>
    intro e he
    rw [applyFilteredChildren] at he
    rcases List.mem_append.mp he with h | h
    · by_cases hk : c.kindOf ∈ lt
      · rw [if_pos hk] at h
        simp only [List.mem_singleton] at h
        subst h
        refine ⟨by simp, ?_⟩
        simp [hk]
      · rw [if_neg hk] at h
        rcases applyFiltered_classify lt (path ++ [i]) c e h with ⟨h1, h2, h3⟩ | ⟨h1, h2⟩
        · refine ⟨by rw [h1]; simp, ?_⟩
          rw [h3, h2]
          simp [hk]
        · exact ⟨lt_trans (by simp) h1, h2⟩
    · exact applyFilteredChildren_classify lt path (i + 1) rest e h
end

/-- Claim C4, counterexample: with `leaf_types = [0]` and a root of kind 0 that
has one child, the root is hooked with `leaf = False` (the traversal never
tests the root's own kind against `leaf_types`), so "a node whose kind is in
`leaf_kinds` is always a leaf regardless of children" fails at the root. -/
theorem apply_filtered_root_cex :
    ¬ (∀ e ∈ applyFiltered [0] [] (NNModule.mk 0 [] [NNModule.mk 1 [] []]),
        e.2.2 = (e.2.1.childrenOf.isEmpty || decide (e.2.1.kindOf ∈ [0]))) := by
  intro h
  have := h ([], NNModule.mk 0 [] [NNModule.mk 1 [] []], false)
    (by simp [applyFiltered, applyFilteredChildren])
  simp [NNModule.childrenOf, NNModule.kindOf] at this

/-- Claim C4 (amended): every non-root node reached by the traversal is hooked
as a leaf iff it has no children or its kind is in `leaf_types`; the root,
however, is hooked with `leaf = (no children)` and its own kind is never tested
against `leaf_types` (and nodes strictly below a `leaf_types` node are not
hooked at all, so they receive no classification). -/
theorem apply_filtered_leaf_classification (lt : List Nat) (net : NNModule) :
    ∀ e ∈ applyFiltered lt [] net,
      (e.1 = [] → e.2.1 = net ∧ e.2.2 = net.childrenOf.isEmpty) ∧
        (e.1 ≠ [] → e.2.2 = (e.2.1.childrenOf.isEmpty || decide (e.2.1.kindOf ∈ lt))) := by
  intro e he
  rcases applyFiltered_classify lt [] net e he with ⟨h1, h2, h3⟩ | ⟨h1, h2⟩
  · exact ⟨fun _ => ⟨h2, h3⟩, fun hne => absurd h1 hne⟩
  · refine ⟨fun h0 => ?_, fun _ => h2⟩
    rw [h0] at h1
    simp at h1

/-- Witness for C4's theorem: on `Sequential(Linear)` with `leaf_types = []`,
the child entry produced by the traversal satisfies the non-root
classification. -/
theorem apply_filtered_leaf_classification_witness :
    (true : Bool) = ((NNModule.mk 1 [] []).childrenOf.isEmpty
        || decide ((NNModule.mk 1 [] []).kindOf ∈ ([] : List Nat))) :=
  (apply_filtered_leaf_classification [] (NNModule.mk 0 [] [NNModule.mk 1 [] []])
      ([0], NNModule.mk 1 [] [], true)
      (by simp [applyFiltered, applyFilteredChildren])).2 (by simp)

mutual
theorem getShape_eq_amended (v : PyVal) : getShape v = getShapeAmended v := by
  match v with
  | .tensor s => rfl
  | .plain => rfl
  | .tup xs => rw [getShape, getShapeAmended, getShapeList_eq_amended xs]
  | .lst xs => rw [getShape, getShapeAmended, getShapeList_eq_amended xs]
  | .dct xs => rw [getShape, getShapeAmended, getShapeDict_eq_amended xs]

theorem getShapeList_eq_amended (xs : List PyVal) :
    keepTruthy (getShapeList xs) = getShapeAmendedList xs := by
  match xs with
  | [] => rfl
  | x :: xs =>
    rw [getShapeList, getShapeAmendedList, ← getShape_eq_amended x]
    cases hx : getShape x with
    | none => simpa [keepTruthy, pyTruthy] using getShapeList_eq_amended xs
    | some s =>
      by_cases ht : s.isTruthy
      · simpa [keepTruthy, pyTruthy, ht] using getShapeList_eq_amended xs
      · simpa [keepTruthy, pyTruthy, ht] using getShapeList_eq_amended xs

theorem getShapeDict_eq_amended (xs : List (Nat × PyVal)) :
    getShapeDict xs = getShapeAmendedDict xs := by
  match xs with
  | [] => rfl
  | (k, v) :: xs =>
    rw [getShapeDict, getShapeAmendedDict, ← getShape_eq_amended v]
    cases hv : getShape v with
    | none => exact getShapeDict_eq_amended xs
    | some s => rw [getShapeDict_eq_amended xs]
end

/-- Claim C7, counterexample: a tuple containing a 0-dim tensor (which has the
shape `[]`).  `filter(None, ...)` drops every falsy element, so the source
drops this element from the sequence result even though it has a shape,
contradicting "exactly the no-shape elements are dropped from sequence
results" (modelled by `getShapeClaim`). -/
theorem get_shape_seq_drop_cex :
    getShape (PyVal.tup [PyVal.tensor []]) ≠ getShapeClaim (PyVal.tup [PyVal.tensor []]) := by
  simp [getShape, getShapeClaim, getShapeList, getShapeClaimList, keepTruthy, pyTruthy,
    ShapeRes.isTruthy]

/-- Claim C7 (amended): shape resolution recursively maps sequences and
mappings; a leaf without a shape attribute resolves to "no shape" and never
raises; tensors resolve to their shape as a list; sequence results drop exactly
the elements whose resolved shape is falsy (no shape, an empty 0-dim shape, or
an empty rebuilt container), and mapping results preserve exactly the keys
whose values have a shape while omitting the no-shape ones. -/
theorem get_shape_resolution :
    (∀ s, getShape (PyVal.tensor s) = some (ShapeRes.dims s)) ∧
      getShape PyVal.plain = none ∧
      (∀ v, getShape v = getShapeAmended v) :=
  ⟨fun _ => rfl, rfl, getShape_eq_amended⟩

theorem lookup_cons_self {δ : Type} (k : Nat) (v : δ) (d : List (Nat × δ)) :
    ((k, v) :: d).lookup k = some v := by
  simp [List.lookup]

theorem lookup_cons_ne {δ : Type} (k k1 : Nat) (v : δ) (d : List (Nat × δ)) (h : k ≠ k1) :
    ((k1, v) :: d).lookup k = d.lookup k := by
  simp [List.lookup, beq_false_of_ne h]

theorem lookup_overwrite_self {δ : Type} (d : List (Nat × δ)) (k0 : Nat) (v0 : δ)
    (h : (d.lookup k0).isSome) :
    (d.map (fun kv => if kv.1 = k0 then (k0, v0) else kv)).lookup k0 = some v0 := by
  induction d with
  | nil => simp [List.lookup] at h
  | cons kv d ih =>
    obtain ⟨k1, v1⟩ := kv
    rw [List.map_cons]
    by_cases h1 : k1 = k0
    · subst h1
      have he : (if (k1, v1).1 = k1 then (k1, v0) else (k1, v1)) = (k1, v0) := if_pos rfl
      rw [he, lookup_cons_self]
    · have he : (if (k1, v1).1 = k0 then (k0, v0) else (k1, v1)) = (k1, v1) := if_neg h1
      rw [he, lookup_cons_ne _ _ _ _ (fun hx => h1 hx.symm)]
      rw [lookup_cons_ne _ _ _ _ (fun hx => h1 hx.symm)] at h
      exact ih h

theorem lookup_overwrite_ne {δ : Type} (d : List (Nat × δ)) (k0 : Nat) (v0 : δ) (k : Nat)
    (h : k ≠ k0) :
    (d.map (fun kv => if kv.1 = k0 then (k0, v0) else kv)).lookup k = d.lookup k := by
  induction d with
  | nil => simp
  | cons kv d ih =>
    obtain ⟨k1, v1⟩ := kv
    rw [List.map_cons]
    by_cases h1 : k1 = k0
    · subst h1
      have he : (if (k1, v1).1 = k1 then (k1, v0) else (k1, v1)) = (k1, v0) := if_pos rfl
      rw [he, lookup_cons_ne _ _ _ _ h, lookup_cons_ne _ _ _ _ h]
      exact ih
    · have he : (if (k1, v1).1 = k0 then (k0, v0) else (k1, v1)) = (k1, v1) := if_neg h1
      rw [he]
      by_cases h2 : k = k1
      · subst h2
        rw [lookup_cons_self, lookup_cons_self]
      · rw [lookup_cons_ne _ _ _ _ h2, lookup_cons_ne _ _ _ _ h2]
        exact ih

theorem lookup_append_single_self {δ : Type} (d : List (Nat × δ)) (k0 : Nat) (v0 : δ)
    (h : d.lookup k0 = none) :
    (d ++ [(k0, v0)]).lookup k0 = some v0 := by
  induction d with
  | nil => simp [lookup_cons_self]
  | cons kv d ih =>
    obtain ⟨k1, v1⟩ := kv
    have h1 : k0 ≠ k1 := by
      intro he; subst he; rw [lookup_cons_self] at h; exact Option.noConfusion h
    rw [lookup_cons_ne _ _ _ _ h1] at h
    rw [List.cons_append, lookup_cons_ne _ _ _ _ h1]
    exact ih h

theorem lookup_append_single_ne {δ : Type} (d : List (Nat × δ)) (k0 : Nat) (v0 : δ) (k : Nat)
    (h : k ≠ k0) :
    (d ++ [(k0, v0)]).lookup k = d.lookup k := by
  induction d with
  | nil => simp [List.lookup, beq_false_of_ne h]
  | cons kv d ih =>
    obtain ⟨k1, v1⟩ := kv
    by_cases h2 : k = k1
    · subst h2
      rw [List.cons_append, lookup_cons_self, lookup_cons_self]
    · rw [List.cons_append, lookup_cons_ne _ _ _ _ h2, lookup_cons_ne _ _ _ _ h2]
      exact ih

theorem dictSet_lookup (d : List (Nat × PyObj)) (k0 : Nat) (v0 : PyObj) (k : Nat) :
    (dictSet d k0 v0).lookup k = if k = k0 then some v0 else d.lookup k := by
  by_cases hk : k = k0
  · subst hk
    rw [if_pos rfl, dictSet]
    by_cases hp : (d.lookup k).isSome
    · rw [if_pos hp]; exact lookup_overwrite_self d k v0 hp
    · rw [if_neg hp]
      exact lookup_append_single_self d k v0 (Option.not_isSome_iff_eq_none.mp hp)
  · rw [if_neg hk, dictSet]
    by_cases hp : (d.lookup k0).isSome
    · rw [if_pos hp]; exact lookup_overwrite_ne d k0 v0 k hk
    · rw [if_neg hp]; exact lookup_append_single_ne d k0 v0 k hk

theorem foldl_addOk_lookup_mem (items : List PyObj) :
    ∀ (s : IDBasedWeakSet) (k : Nat) (v : PyObj),
      (items.foldl IDBasedWeakSet.addOk s).data.lookup k = some v →
        v ∈ items ∨ s.data.lookup k = some v := by
  induction items with
  | nil => intro s k v h; exact Or.inr h
  | cons x items ih =>
    intro s k v h
    rw [List.foldl_cons] at h
    rcases ih _ k v h with hm | hl
    · exact Or.inl (List.mem_cons_of_mem _ hm)
    · rw [IDBasedWeakSet.addOk, dictSet_lookup] at hl
      by_cases hk : k = x.ident
      · rw [if_pos hk] at hl
        have hv : x = v := Option.some_inj.mp hl
        exact Or.inl (hv ▸ List.mem_cons_self x items)
      · rw [if_neg hk] at hl
        exact Or.inr hl

theorem containsObj_iff_lookup (live : PyObj → Bool) (s : IDBasedWeakSet) (x : PyObj) :
    IDBasedWeakSet.containsObj live s x = true ↔
      (s.data.lookup x.ident = some x ∧ live x = true) := by
  unfold IDBasedWeakSet.containsObj weakref_deref
  cases hl : s.data.lookup x.ident with
  | none => simp
  | some stored =>
    by_cases hlive : live stored = true
    · simp only [hlive, if_true]
      constructor
      · intro h
        have hx : stored = x := by simpa using h
        subst hx
        exact ⟨rfl, hlive⟩
      · rintro ⟨h1, _⟩
        have hx : stored = x := by simpa using h1
        subst hx
        simp
    · rw [Bool.not_eq_true] at hlive
      simp only [hlive, Bool.false_eq_true, if_false]
      constructor
      · intro h
        exact absurd h (by simp)
      · rintro ⟨h1, h2⟩
        have hx : stored = x := by simpa using h1
        subst hx
        rw [hlive] at h2
        exact absurd h2 (by simp)

/-- Claim C5: `contains` is true only for objects that were added and are still
alive; it is true immediately after `add(x)` while `x` is alive; and once the
referent is reclaimed it is false with no removal call needed (a stale entry is
treated as absent whether or not it was physically removed). -/
theorem id_weak_set_membership (live : PyObj → Bool) (items : List PyObj)
    (s : IDBasedWeakSet) (x : PyObj) :
    (IDBasedWeakSet.containsObj live (IDBasedWeakSet.ofItems items) x = true →
        x ∈ items ∧ live x = true) ∧
      (live x = true → IDBasedWeakSet.containsObj live (s.addOk x) x = true) ∧
      (live x = false → IDBasedWeakSet.containsObj live s x = false) := by
  refine ⟨?_, ?_, ?_⟩
  · intro h
    obtain ⟨h1, h2⟩ := (containsObj_iff_lookup live _ x).mp h
    refine ⟨?_, h2⟩
    rcases foldl_addOk_lookup_mem items ⟨[]⟩ x.ident x h1 with hm | hbot
    · exact hm
    · exact absurd hbot (by simp [List.lookup])
  · intro h
    refine (containsObj_iff_lookup live _ x).mpr ⟨?_, h⟩
    show (dictSet s.data x.ident x).lookup x.ident = some x
    rw [dictSet_lookup, if_pos rfl]
  · intro h
    rw [Bool.eq_false_iff]
    intro hc
    obtain ⟨_, h2⟩ := (containsObj_iff_lookup live s x).mp hc
    rw [h] at h2
    exact Bool.false_ne_true h2

/-- Witness for C5's theorem: right after adding the live object with identity
1 to the empty set, membership holds. -/
theorem id_weak_set_membership_witness :
    IDBasedWeakSet.containsObj (fun o => decide (o.serial = 0))
      (IDBasedWeakSet.addOk ⟨[]⟩ (PyObj.mk 1 0)) (PyObj.mk 1 0) = true :=
  (id_weak_set_membership (fun o => decide (o.serial = 0)) [] ⟨[]⟩ (PyObj.mk 1 0)).2.1
    (by decide)

/-- Claim C9: membership holds exactly when the weak reference stored under the
query's identity key still refers to the query object itself and that object is
alive — so a reclaimed-and-reused identity reports false rather than a false
positive. -/
theorem id_weak_set_identity_reuse (live : PyObj → Bool) (s : IDBasedWeakSet) (x : PyObj) :
    IDBasedWeakSet.containsObj live s x = true ↔
      (s.data.lookup x.ident = some x ∧ live x = true) :=
  containsObj_iff_lookup live s x

/-- Witness for C9's theorem: object `⟨7, 0⟩` was added and reclaimed, and a
different live object `⟨7, 1⟩` reuses identity 7; membership for the new object
reports false (the stored referent is not the query object). -/
theorem id_weak_set_identity_reuse_witness :
    IDBasedWeakSet.containsObj (fun o => o == PyObj.mk 7 1)
      (IDBasedWeakSet.ofItems [PyObj.mk 7 0]) (PyObj.mk 7 1) = false := by
  rw [Bool.eq_false_iff]
  intro hc
  have h := (id_weak_set_identity_reuse (fun o => o == PyObj.mk 7 1)
    (IDBasedWeakSet.ofItems [PyObj.mk 7 0]) (PyObj.mk 7 1)).mp hc
  revert h
  decide

/-- Claim C10: in the entry interceptor the new tracker is recorded (pushed on
the call stack and appended to the result list) only after both the tracker
factory and the tracker's `pre` have returned; if either raises, the session's
call stack and result list are left unchanged. -/
theorem pre_hook_no_partial_registration {τ ε : Type}
    (tracker_factory : Nat → Nat → Bool → Except ε τ) (preFn : τ → Except ε Unit)
    (leaf : Bool) (st : HookState τ) :
    ((pre_hook_fallible tracker_factory preFn leaf st).2.isSome →
        (pre_hook_fallible tracker_factory preFn leaf st).1 = st) ∧
      (∀ t, tracker_factory st.all_trackers.length st.tracker_stack.length leaf = .ok t →
        preFn t = .ok () →
        pre_hook_fallible tracker_factory preFn leaf st =
          ({ all_trackers := st.all_trackers ++ [t]
             tracker_stack := t :: st.tracker_stack }, none)) := by
  constructor
  · intro h
    rcases hf : tracker_factory st.all_trackers.length st.tracker_stack.length leaf with e | t
    · simp [pre_hook_fallible, hf]
    · rcases hp : preFn t with e | u
      · simp [pre_hook_fallible, hf, hp]
      · exfalso
        simp [pre_hook_fallible, hf, hp] at h
  · intro t hf hp
    simp [pre_hook_fallible, hf, hp]

/-- Witness for C10's theorem: with a factory that raises, the state is
unchanged; with an always-succeeding factory and `pre`, the tracker is
recorded. -/
theorem pre_hook_no_partial_registration_witness :
    (pre_hook_fallible (fun _ _ _ => (.error 3 : Except Nat Nat))
        (fun _ => .ok ()) true ⟨[7], [7]⟩).1 = ⟨[7], [7]⟩ ∧
      pre_hook_fallible (fun c d _ => (.ok (c + d) : Except Nat Nat))
          (fun _ => .ok ()) false ⟨[5], []⟩ =
        ({ all_trackers := [5, 1], tracker_stack := [1] }, none) := by
  constructor
  · exact (pre_hook_no_partial_registration (fun _ _ _ => (.error 3 : Except Nat Nat))
      (fun _ => .ok ()) true ⟨[7], [7]⟩).1 (by decide)
  · exact (pre_hook_no_partial_registration (fun c d _ => (.ok (c + d) : Except Nat Nat))
      (fun _ => .ok ()) false ⟨[5], []⟩).2 1 (by rfl) (by rfl)

theorem attachHooks_spec (n : Nat) :
    ∀ st : HookStore,
      (attachHooks n st).1 = List.range' st.next_id n ∧
        (attachHooks n st).2.attached = st.attached ++ List.range' st.next_id n ∧
        (attachHooks n st).2.next_id = st.next_id + n := by
  induction n with
  | zero => intro st; simp [attachHooks]
  | succ n ih =>
    intro st
    obtain ⟨h1, h2, h3⟩ := ih { attached := st.attached ++ [st.next_id], next_id := st.next_id + 1 }
    refine ⟨?_, ?_, ?_⟩
    · rw [attachHooks, List.range'_succ]
      simpa using h1
    · rw [attachHooks, List.range'_succ]
      simpa using h2
    · rw [attachHooks]
      simp only [h3]
      omega

theorem foldl_removeHook_attached (hs : List Nat) :
    ∀ st : HookStore,
      (hs.foldl HookStore.removeHook st).attached =
        st.attached.filter (fun x => decide (x ∉ hs)) := by
  induction hs with
  | nil => intro st; simp
  | cons h hs ih =>
    intro st
    rw [List.foldl_cons, ih, HookStore.removeHook]
    simp only [List.filter_filter]
    apply List.filter_congr
    intro x _
    simp [List.mem_cons, not_or, Bool.and_comm]

/-- Claim C2: every interceptor attached by a `track` session is detached when
the session ends, both when the enclosed computation completes normally and
when it raises; in the raising case the exception propagates to the caller
unchanged (and in the normal case the result does). -/
theorem track_detaches_hooks {ε α : Type} (lt : List Nat) (net : NNModule)
    (body : Except ε α) (st : HookStore)
    (hfresh : ∀ h ∈ st.attached, h < st.next_id) :
    (track_run lt net body st).1 = body ∧
      (track_run lt net body st).2.attached = st.attached := by
  obtain ⟨h1, h2, _⟩ := attachHooks_spec (2 * (applyFiltered lt [] net).length) st
  have hclean :
      ((attachHooks (2 * (applyFiltered lt [] net).length) st).1.foldl
          HookStore.removeHook
          (attachHooks (2 * (applyFiltered lt [] net).length) st).2).attached =
        st.attached := by
    rw [foldl_removeHook_attached, h1, h2, List.filter_append]
    have hl : List.filter (fun x => decide (x ∉ List.range' st.next_id
        (2 * (applyFiltered lt [] net).length))) st.attached = st.attached := by
      apply List.filter_eq_self.mpr
      intro a ha
      have := hfresh a ha
      simp only [decide_eq_true_eq]
      intro hmem
      rw [List.mem_range'_1] at hmem
      omega
    have hr : List.filter (fun x => decide (x ∉ List.range' st.next_id
        (2 * (applyFiltered lt [] net).length)))
        (List.range' st.next_id (2 * (applyFiltered lt [] net).length)) = [] := by
      apply List.filter_eq_nil_iff.mpr
      intro a ha
      simp [ha]
    rw [hl, hr, List.append_nil]
  cases body with
  | ok a => exact ⟨rfl, hclean⟩
  | error e => exact ⟨rfl, hclean⟩

/-- Witness for C2's theorem: a session over a single-node tree whose enclosed
computation raises `9`; the exception propagates unchanged and only the
pre-existing foreign hook `3` stays attached. -/
theorem track_detaches_hooks_witness :
    (track_run [] (NNModule.mk 0 [] []) (Except.error 9 : Except Nat Nat) ⟨[3], 4⟩).1
        = Except.error 9 ∧
      (track_run [] (NNModule.mk 0 [] []) (Except.error 9 : Except Nat Nat) ⟨[3], 4⟩).2.attached
        = [3] :=
  track_detaches_hooks [] (NNModule.mk 0 [] []) (Except.error 9) ⟨[3], 4⟩ (by decide)

theorem setdefault_fst {δ : Type} (d : List (Nat × δ)) (k : Nat) (v : δ) :
    (Dict.setdefault d k v).1 = (d.lookup k).getD v := by
  rw [Dict.setdefault]
  cases h : d.lookup k <;> simp

theorem setdefault_lookup_self {δ : Type} (d : List (Nat × δ)) (k : Nat) (v : δ) :
    (Dict.setdefault d k v).2.lookup k = some ((d.lookup k).getD v) := by
  rw [Dict.setdefault]
  cases h : d.lookup k with
  | none => simpa using lookup_append_single_self d k v h
  | some w => simpa using h

theorem setdefault_lookup_ne {δ : Type} (d : List (Nat × δ)) (k : Nat) (v : δ) (k1 : Nat)
    (h : k1 ≠ k) :
    (Dict.setdefault d k v).2.lookup k1 = d.lookup k1 := by
  rw [Dict.setdefault]
  cases hd : d.lookup k with
  | none => simpa using lookup_append_single_ne d k v k1 h
  | some w => rfl

theorem trackerListInitFrom_spec {σ δ μ ι ω : Type} (d0 : δ) (count depth : Nat) (leaf : Bool)
    (tfs : List (TrackerKind σ δ μ ι ω)) :
    ∀ (i : Nat) (sd : List (Nat × δ)),
      ((trackerListInitFrom d0 count depth leaf i tfs sd).1.length = tfs.length) ∧
        (∀ j (hj : j < tfs.length)
            (hj' : j < (trackerListInitFrom d0 count depth leaf i tfs sd).1.length),
          (trackerListInitFrom d0 count depth leaf i tfs sd).1.get ⟨j, hj'⟩ =
            (tfs.get ⟨j, hj⟩).init count depth leaf ((sd.lookup (i + j)).getD d0)) ∧
        (∀ k, k < i →
          (trackerListInitFrom d0 count depth leaf i tfs sd).2.lookup k = sd.lookup k) ∧
        (∀ j, j < tfs.length →
          (trackerListInitFrom d0 count depth leaf i tfs sd).2.lookup (i + j) =
            some ((sd.lookup (i + j)).getD d0)) := by
  induction tfs with
  | nil =>
    intro i sd
    refine ⟨rfl, ?_, ?_, ?_⟩
    · intro j hj; exact absurd hj (by simp)
    · intro k _; rfl
    · intro j hj; exact absurd hj (by simp)
  | cons tf tfs ih =>
    intro i sd
    obtain ⟨ih1, ih2, ih3, ih4⟩ := ih (i + 1) (Dict.setdefault sd i d0).2
    refine ⟨?_, ?_, ?_, ?_⟩
    · simp [trackerListInitFrom, ih1]
    · intro j hj hj'
      match j with
      | 0 =>
        show (trackerListInitFrom d0 count depth leaf i (tf :: tfs) sd).1.get ⟨0, hj'⟩ = _
        simp only [trackerListInitFrom, List.get]
        rw [setdefault_fst, Nat.add_zero]
      | j + 1 =>
        have hji : j < tfs.length := by simpa using hj
        have hji' : j < (trackerListInitFrom d0 count depth leaf (i + 1) tfs
            (Dict.setdefault sd i d0).2).1.length := by rw [ih1]; exact hji
        have hstep := ih2 j hji hji'
        rw [setdefault_lookup_ne sd i d0 (i + 1 + j) (by omega)] at hstep
        simp only [trackerListInitFrom, List.get]
        rw [hstep]
        have : i + 1 + j = i + (j + 1) := by omega
        rw [this]
    · intro k hk
      simp only [trackerListInitFrom]
      rw [ih3 k (by omega)]
      exact setdefault_lookup_ne sd i d0 k (by omega)
    · intro j hj
      match j with
      | 0 =>
        simp only [trackerListInitFrom, Nat.add_zero]
        rw [ih3 i (by omega), setdefault_lookup_self]
      | j + 1 =>
        have hji : j < tfs.length := by simpa using hj
        have hstep := ih4 j hji
        rw [setdefault_lookup_ne sd i d0 (i + 1 + j) (by omega)] at hstep
        simp only [trackerListInitFrom]
        have : i + (j + 1) = i + 1 + j := by omega
        rw [this]
        exact hstep

/-- Claim C6: `TrackerList` builds one wrapped instance per registered factory,
in registration order, giving instance `i` the positional sub-slot
`shared_dict.setdefault(i, {})` (so kinds never share a sub-slot); `pre` and
`post` invoke the corresponding method on every wrapped instance in
registration order; and positional indexing returns the i-th wrapped
instance. -/
theorem tracker_list_combinator {σ δ μ ι ω : Type} (d0 : δ)
    (tfs : List (TrackerKind σ δ μ ι ω)) (count depth : Nat) (leaf : Bool)
    (sd : List (Nat × δ)) (m : μ) (inp : ι) (out : ω) :
    ((trackerListInit d0 tfs count depth leaf sd).1.length = tfs.length) ∧
      (∀ i (hi : i < (trackerListInit d0 tfs count depth leaf sd).1.length)
          (hi' : i < tfs.length),
        trackerListGet (trackerListInit d0 tfs count depth leaf sd).1 i hi =
          (tfs.get ⟨i, hi'⟩).init count depth leaf ((sd.lookup i).getD d0)) ∧
      (∀ i, i < tfs.length →
        (trackerListInit d0 tfs count depth leaf sd).2.lookup i =
          some ((sd.lookup i).getD d0)) ∧
      (∀ (insts : List σ) i (h : i < (trackerListPre tfs insts m inp).length)
          (hf : i < tfs.length) (hs : i < insts.length),
        (trackerListPre tfs insts m inp).get ⟨i, h⟩ =
          (tfs.get ⟨i, hf⟩).pre (insts.get ⟨i, hs⟩) m inp) ∧
      (∀ (insts : List σ) i (h : i < (trackerListPost tfs insts m inp out).length)
          (hf : i < tfs.length) (hs : i < insts.length),
        (trackerListPost tfs insts m inp out).get ⟨i, h⟩ =
          (tfs.get ⟨i, hf⟩).post (insts.get ⟨i, hs⟩) m inp out) := by
  obtain ⟨h1, h2, _, h4⟩ := trackerListInitFrom_spec d0 count depth leaf tfs 0 sd
  refine ⟨h1, ?_, ?_, ?_, ?_⟩
  · intro i hi hi'
    have h := h2 i hi' hi
    simpa [trackerListGet, trackerListInit] using h
  · intro i hi
    simpa [trackerListInit] using h4 i hi
  · intro insts i h hf hs
    simp [trackerListPre, List.getElem_zipWith]
  · intro insts i h hf hs
    simp [trackerListPost, List.getElem_zipWith]

/-- Witness for C6's theorem, evaluated on `demoKinds` with
`count = 2, depth = 1`: instance 0 is built from sub-slot 0 (value `2`), the
shared dict gains slot 1, and fanned-out `pre` on instance 1 applies that
kind's `pre`. -/
theorem tracker_list_combinator_witness :
    trackerListGet (trackerListInit 0 demoKinds 2 1 true []).1 0 (by decide) = 2 ∧
      (trackerListInit 0 demoKinds 2 1 true []).2.lookup 1 = some 0 ∧
      (trackerListPre demoKinds [5, 6] 10 20).get ⟨1, by decide⟩ = 36 := by
  refine ⟨?_, ?_, ?_⟩
  · have h := (tracker_list_combinator 0 demoKinds 2 1 true [] 10 20 30).2.1 0
      (by decide) (by decide)
    rw [h]
    rfl
  · exact ((tracker_list_combinator 0 demoKinds 2 1 true [] 10 20 30).2.2.1 1 (by decide)).trans
      (by rfl)
  · have h := (tracker_list_combinator 0 demoKinds 2 1 true [] 10 20 30).2.2.2.1 [5, 6] 1
      (by decide) (by decide) (by decide)
    rw [h]
    rfl

theorem pre_hook_eq (path : List Nat) (leaf : Bool) (st : SessionState) :
    pre_hook path leaf st =
      { all_trackers := st.all_trackers ++
          [⟨st.all_trackers.length, st.tracker_stack.length, leaf, path⟩]
        tracker_stack := ⟨st.all_trackers.length, st.tracker_stack.length, leaf, path⟩ ::
          st.tracker_stack
        events := st.events ++
          [HookEvent.pre path ⟨st.all_trackers.length, st.tracker_stack.length, leaf, path⟩] } :=
  rfl

theorem forward_hook_eq (path : List Nat) (st : SessionState) (t : TrackerInfo)
    (rest : List TrackerInfo) (h : st.tracker_stack = t :: rest) :
    forward_hook path st =
      { all_trackers := st.all_trackers
        tracker_stack := rest
        events := st.events ++ [HookEvent.post path t] } := by
  rw [forward_hook, h]

theorem range'_append_my (s m n : Nat) :
    List.range' s m ++ List.range' (s + m) n = List.range' s (m + n) := by
  have h := List.range'_append s m n 1
  simp only [Nat.one_mul, Nat.mul_one] at h
  rw [h, Nat.add_comm n m]


theorem runSteps_append (s1 s2 : List Step) (st : SessionState) :
    runSteps (s1 ++ s2) st = runSteps s2 (runSteps s1 st) := by
  induction s1 generalizing st with
  | nil => rfl
  | cons a s1 ih =>
    cases a with
    | enter path leaf => rw [List.cons_append, runSteps, runSteps, ih]
    | exit path => rw [List.cons_append, runSteps, runSteps, ih]

mutual
theorem execSteps_trace (lt path : List Nat) (m : NNModule) (st : SessionState) :
    ∃ ts es,
      (runSteps (execSteps lt path m) st).all_trackers = st.all_trackers ++ ts ∧
        (runSteps (execSteps lt path m) st).events = st.events ++ es ∧
        (runSteps (execSteps lt path m) st).tracker_stack = st.tracker_stack ∧
        ts.map TrackerInfo.count = List.range' st.all_trackers.length ts.length ∧
        countPre es = ts.length ∧
        countPost es = ts.length ∧
        (∀ p t, HookEvent.post p t ∈ es → t.path = p ∧ HookEvent.pre p t ∈ es) := by
  match m with
  | .mk k ps cs =>
    obtain ⟨ts2, es2, ha, he, hs, hm, hcpre, hcpost, hpair⟩ :=
      stepsChildren_trace lt path 0 cs (pre_hook path cs.isEmpty st)
    have hrun : runSteps (execSteps lt path (NNModule.mk k ps cs)) st =
        forward_hook path
          (runSteps (stepsChildren lt path 0 cs) (pre_hook path cs.isEmpty st)) := by
      rw [execSteps, runSteps, runSteps_append]
      rfl
    have hstk : (runSteps (stepsChildren lt path 0 cs)
          (pre_hook path cs.isEmpty st)).tracker_stack
        = ⟨st.all_trackers.length, st.tracker_stack.length, cs.isEmpty, path⟩ ::
          st.tracker_stack := by
      rw [hs]; rfl
    refine ⟨⟨st.all_trackers.length, st.tracker_stack.length, cs.isEmpty, path⟩ :: ts2,
      HookEvent.pre path ⟨st.all_trackers.length, st.tracker_stack.length, cs.isEmpty, path⟩ ::
        (es2 ++ [HookEvent.post path
          ⟨st.all_trackers.length, st.tracker_stack.length, cs.isEmpty, path⟩]),
      ?_, ?_, ?_, ?_, ?_, ?_, ?_⟩
    · rw [hrun, forward_hook_eq _ _ _ _ hstk]
      rw [ha]
      simp [pre_hook]
    · rw [hrun, forward_hook_eq _ _ _ _ hstk]
      rw [he]
      simp [pre_hook]
    · rw [hrun, forward_hook_eq _ _ _ _ hstk]
    · simp only [List.map_cons, List.length_cons, List.range'_succ]
      rw [hm]
      congr 1
      simp [pre_hook]
    · simp only [countPre, List.countP_cons, List.countP_append]
      have h2 : countPre es2 = ts2.length := hcpre
      simp only [countPre] at h2
      simp [h2]
    · simp only [countPost, List.countP_cons, List.countP_append]
      have h2 : countPost es2 = ts2.length := hcpost
      simp only [countPost] at h2
      simp [h2]
    · intro p t hmem
      rcases List.mem_cons.mp hmem with hh | hh
      · exact absurd hh (by simp)
      · rcases List.mem_append.mp hh with h2 | h2
        · obtain ⟨hp, hpre⟩ := hpair p t h2
          exact ⟨hp, List.mem_cons_of_mem _ (List.mem_append_left _ hpre)⟩
        · simp only [List.mem_singleton] at h2
          obtain ⟨hp, ht⟩ : p = path ∧
              t = ⟨st.all_trackers.length, st.tracker_stack.length, cs.isEmpty, path⟩ := by
            cases h2; exact ⟨rfl, rfl⟩
          subst hp; subst ht
          exact ⟨rfl, List.mem_cons_self _ _⟩

theorem stepsChildren_trace (lt path : List Nat) (i : Nat) (cs : List NNModule)
    (st : SessionState) :
    ∃ ts es,
      (runSteps (stepsChildren lt path i cs) st).all_trackers = st.all_trackers ++ ts ∧
        (runSteps (stepsChildren lt path i cs) st).events = st.events ++ es ∧
        (runSteps (stepsChildren lt path i cs) st).tracker_stack = st.tracker_stack ∧
        ts.map TrackerInfo.count = List.range' st.all_trackers.length ts.length ∧
        countPre es = ts.length ∧
        countPost es = ts.length ∧
        (∀ p t, HookEvent.post p t ∈ es → t.path = p ∧ HookEvent.pre p t ∈ es) := by
  match cs with
  | [] =>
    refine ⟨[], [], ?_, ?_, ?_, ?_, ?_, ?_, ?_⟩ <;>
      simp [stepsChildren, runSteps, countPre, countPost]
  | c :: rest =>
    by_cases hk : c.kindOf ∈ lt
    · obtain ⟨ts2, es2, ha, he, hs, hm, hcpre, hcpost, hpair⟩ :=
        stepsChildren_trace lt path (i + 1) rest
          (forward_hook (path ++ [i]) (pre_hook (path ++ [i]) true st))
      have hfh : forward_hook (path ++ [i]) (pre_hook (path ++ [i]) true st) =
          { all_trackers := st.all_trackers ++
              [⟨st.all_trackers.length, st.tracker_stack.length, true, path ++ [i]⟩]
            tracker_stack := st.tracker_stack
            events := st.events ++
              [HookEvent.pre (path ++ [i])
                ⟨st.all_trackers.length, st.tracker_stack.length, true, path ++ [i]⟩,
               HookEvent.post (path ++ [i])
                ⟨st.all_trackers.length, st.tracker_stack.length, true, path ++ [i]⟩] } := by
        rw [forward_hook_eq (path ++ [i]) _ _ _ rfl]
        simp [pre_hook]
      have hexec : runSteps (stepsChildren lt path i (c :: rest)) st =
          runSteps (stepsChildren lt path (i + 1) rest)
            (forward_hook (path ++ [i]) (pre_hook (path ++ [i]) true st)) := by
        rw [stepsChildren, if_pos hk, runSteps_append]
        rfl
      refine ⟨⟨st.all_trackers.length, st.tracker_stack.length, true, path ++ [i]⟩ :: ts2,
        HookEvent.pre (path ++ [i])
            ⟨st.all_trackers.length, st.tracker_stack.length, true, path ++ [i]⟩ ::
          HookEvent.post (path ++ [i])
            ⟨st.all_trackers.length, st.tracker_stack.length, true, path ++ [i]⟩ :: es2,
        ?_, ?_, ?_, ?_, ?_, ?_, ?_⟩
      · rw [hexec, ha, hfh]
        simp
      · rw [hexec, he, hfh]
        simp
      · rw [hexec, hs, hfh]
      · simp only [List.map_cons, List.length_cons, List.range'_succ]
        rw [hm, hfh]
        congr 1
        simp
      · simp only [countPre, List.countP_cons, List.countP_append]
        have h2 : countPre es2 = ts2.length := hcpre
        simp only [countPre] at h2
        simp [h2]
      · simp only [countPost, List.countP_cons, List.countP_append]
        have h2 : countPost es2 = ts2.length := hcpost
        simp only [countPost] at h2
        simp [h2]
      · intro p t hmem
        rcases List.mem_cons.mp hmem with hh | hh
        · exact absurd hh (by simp)
        · rcases List.mem_cons.mp hh with hh2 | hh2
          · obtain ⟨hp, ht⟩ : p = path ++ [i] ∧
                t = ⟨st.all_trackers.length, st.tracker_stack.length, true, path ++ [i]⟩ := by
              cases hh2; exact ⟨rfl, rfl⟩
            subst hp; subst ht
            exact ⟨rfl, List.mem_cons_self _ _⟩
          · obtain ⟨hp, hpre⟩ := hpair p t hh2
            exact ⟨hp, List.mem_cons_of_mem _ (List.mem_cons_of_mem _ hpre)⟩
    · obtain ⟨ts1, es1, ha1, he1, hs1, hm1, hcpre1, hcpost1, hpair1⟩ :=
        execSteps_trace lt (path ++ [i]) c st
      obtain ⟨ts2, es2, ha2, he2, hs2, hm2, hcpre2, hcpost2, hpair2⟩ :=
        stepsChildren_trace lt path (i + 1) rest (runSteps (execSteps lt (path ++ [i]) c) st)
      have hexec : runSteps (stepsChildren lt path i (c :: rest)) st =
          runSteps (stepsChildren lt path (i + 1) rest)
            (runSteps (execSteps lt (path ++ [i]) c) st) := by
        rw [stepsChildren, if_neg hk, runSteps_append]
      refine ⟨ts1 ++ ts2, es1 ++ es2, ?_, ?_, ?_, ?_, ?_, ?_, ?_⟩
      · rw [hexec, ha2, ha1, List.append_assoc]
      · rw [hexec, he2, he1, List.append_assoc]
      · rw [hexec, hs2, hs1]
      · rw [List.map_append, hm1, hm2, ha1]
        simp only [List.length_append]
        rw [range'_append_my]
      · simp only [countPre, List.countP_append, List.length_append]
        have g1 : countPre es1 = ts1.length := hcpre1
        have g2 : countPre es2 = ts2.length := hcpre2
        simp only [countPre] at g1 g2
        omega
      · simp only [countPost, List.countP_append, List.length_append]
        have g1 : countPost es1 = ts1.length := hcpost1
        have g2 : countPost es2 = ts2.length := hcpost2
        simp only [countPost] at g1 g2
        omega
      · intro p t hmem
        rcases List.mem_append.mp hmem with hh | hh
        · obtain ⟨hp, hpre⟩ := hpair1 p t hh
          exact ⟨hp, List.mem_append_left _ hpre⟩
        · obtain ⟨hp, hpre⟩ := hpair2 p t hh
          exact ⟨hp, List.mem_append_right _ hpre⟩
end

/-- Claim C1: for every session over every node tree executed once, the number
of pre-interceptor invocations equals the number of post-interceptor
invocations equals the length of the session's result list; each tracker is
constructed with `count` equal to the size of the result list just before it is
appended, so in result-list order the counts are exactly `0..n-1`; and each
exit pops from the call stack exactly the tracker whose `pre` ran for that node
(strict LIFO pairing). -/
theorem track_session_counts (lt : List Nat) (net : NNModule) :
    countPre (runSession lt net).events = (runSession lt net).all_trackers.length ∧
      countPost (runSession lt net).events = (runSession lt net).all_trackers.length ∧
      (runSession lt net).all_trackers.map TrackerInfo.count =
        List.range (runSession lt net).all_trackers.length ∧
      (∀ p t, HookEvent.post p t ∈ (runSession lt net).events →
        t.path = p ∧ HookEvent.pre p t ∈ (runSession lt net).events) := by
  obtain ⟨ts, es, ha, he, _, hm, hcpre, hcpost, hpair⟩ :=
    execSteps_trace lt [] net { all_trackers := [], tracker_stack := [], events := [] }
  have ha' : (runSession lt net).all_trackers = ts := by
    rw [runSession, ha]; rfl
  have he' : (runSession lt net).events = es := by
    rw [runSession, he]; rfl
  refine ⟨?_, ?_, ?_, ?_⟩
  · rw [he', ha', hcpre]
  · rw [he', ha', hcpost]
  · rw [ha', hm, List.range_eq_range']
    rfl
  · intro p t hmem
    rw [he'] at hmem
    obtain ⟨hp, hpre⟩ := hpair p t hmem
    rw [he']
    exact ⟨hp, hpre⟩

/-- Witness for C1's theorem on the doctest tree: the six trackers see six
`pre` firings, and the `post` firing of the first `Linear` node pairs with its
own `pre`. -/
theorem track_session_counts_witness :
    countPre (runSession [] demoNet).events = 6 ∧
      HookEvent.pre [0] ⟨1, 1, true, [0]⟩ ∈ (runSession [] demoNet).events := by
  have h := track_session_counts [] demoNet
  constructor
  · rw [h.1]
    decide
  · exact (h.2.2.2 [0] ⟨1, 1, true, [0]⟩ (by decide)).2

theorem forward_hook_all (path : List Nat) (st : SessionState) :
    (forward_hook path st).all_trackers = st.all_trackers := by
  rw [forward_hook]
  cases st.tracker_stack <;> rfl

theorem isHooked_take (lt : List Nat) (p : List Nat) :
    ∀ (m : NNModule), isHooked lt p m = true →
      ∀ k, k < p.length → isHooked lt (p.take k) m = true := by
  induction p with
  | nil => intro m _ k hk; exact absurd hk (by simp)
  | cons a p ih =>
    intro m h k hk
    match k with
    | 0 => rfl
    | k + 1 =>
      rw [List.take_succ_cons]
      rw [isHooked] at h ⊢
      simp only [List.get?_eq_getElem?] at h ⊢
      cases hg : m.childrenOf[a]? with
      | none => simp [hg] at h
      | some c =>
        simp only [hg] at h ⊢
        by_cases hkind : c.kindOf ∈ lt
        · rw [if_pos hkind] at h
          have hp : p = [] := by simpa using h
          subst hp
          simp at hk
        · rw [if_neg hkind] at h ⊢
          exact ih c h k (by simpa using hk)

theorem numInstrumented_eq_length (lt : List Nat) (net : NNModule) (p : List Nat)
    (h : isHooked lt p net = true) :
    numInstrumentedStrictAncestors lt net p = p.length := by
  have hall : ∀ q ∈ strictAncestorPaths p, (fun q => isHooked lt q net) q = true := by
    intro q hq
    simp only [strictAncestorPaths, List.mem_map, List.mem_range] at hq
    obtain ⟨k, hk, rfl⟩ := hq
    exact isHooked_take lt p net h k hk
  rw [numInstrumentedStrictAncestors, List.countP_eq_length.mpr hall]
  simp [strictAncestorPaths]

mutual
theorem execSteps_depth (lt path : List Nat) (m : NNModule) (st : SessionState)
    (root : NNModule) (hlen : st.tracker_stack.length = path.length)
    (hhook : ∀ q, isHooked lt q m = true → isHooked lt (path ++ q) root = true) :
    ∀ t ∈ (runSteps (execSteps lt path m) st).all_trackers,
      t ∈ st.all_trackers ∨ (t.depth = t.path.length ∧ isHooked lt t.path root = true) := by
  match m with
  | .mk k ps cs =>
    intro t ht
    have hrun : runSteps (execSteps lt path (NNModule.mk k ps cs)) st =
        forward_hook path
          (runSteps (stepsChildren lt path 0 cs) (pre_hook path cs.isEmpty st)) := by
      rw [execSteps, runSteps, runSteps_append]
      rfl
    rw [hrun, forward_hook_all] at ht
    have hch := stepsChildren_depth lt path 0 cs (pre_hook path cs.isEmpty st) root
      (by simp [pre_hook, hlen])
      (fun j c hg q hq => by
        have hj : isHooked lt (j :: q) (NNModule.mk k ps cs) = true := by
          rw [isHooked]
          show (match cs.get? j with
            | none => false
            | some c => if c.kindOf ∈ lt then q.isEmpty else isHooked lt q c) = true
          rw [hg]
          exact hq
        have hr := hhook (j :: q) hj
        simpa using hr)
      t ht
    rcases hch with hin | hgood
    · rw [pre_hook_eq] at hin
      simp only [List.mem_append, List.mem_singleton] at hin
      rcases hin with h1 | h1
      · exact Or.inl h1
      · subst h1
        refine Or.inr ⟨hlen, ?_⟩
        have hr := hhook [] rfl
        simpa using hr
    · exact Or.inr hgood

theorem stepsChildren_depth (lt path : List Nat) (i : Nat) (cs : List NNModule)
    (st : SessionState) (root : NNModule)
    (hlen : st.tracker_stack.length = path.length + 1)
    (hc : ∀ j c, cs.get? j = some c → ∀ q,
        (if c.kindOf ∈ lt then q.isEmpty else isHooked lt q c) = true →
        isHooked lt (path ++ ((i + j) :: q)) root = true) :
    ∀ t ∈ (runSteps (stepsChildren lt path i cs) st).all_trackers,
      t ∈ st.all_trackers ∨ (t.depth = t.path.length ∧ isHooked lt t.path root = true) := by
  match cs with
  | [] =>
    intro t ht
    exact Or.inl (by simpa [stepsChildren, runSteps] using ht)
  | c :: rest =>
    intro t ht
    by_cases hk : c.kindOf ∈ lt
    · have hfh : forward_hook (path ++ [i]) (pre_hook (path ++ [i]) true st) =
          { all_trackers := st.all_trackers ++
              [⟨st.all_trackers.length, st.tracker_stack.length, true, path ++ [i]⟩]
            tracker_stack := st.tracker_stack
            events := st.events ++
              [HookEvent.pre (path ++ [i])
                ⟨st.all_trackers.length, st.tracker_stack.length, true, path ++ [i]⟩,
               HookEvent.post (path ++ [i])
                ⟨st.all_trackers.length, st.tracker_stack.length, true, path ++ [i]⟩] } := by
        rw [forward_hook_eq (path ++ [i]) _ _ _ rfl]
        simp [pre_hook]
      have hexec : runSteps (stepsChildren lt path i (c :: rest)) st =
          runSteps (stepsChildren lt path (i + 1) rest)
            (forward_hook (path ++ [i]) (pre_hook (path ++ [i]) true st)) := by
        rw [stepsChildren, if_pos hk, runSteps_append]
        rfl
      rw [hexec] at ht
      have hch := stepsChildren_depth lt path (i + 1) rest
        (forward_hook (path ++ [i]) (pre_hook (path ++ [i]) true st)) root
        (by rw [hfh]; exact hlen)
        (fun j c' hg q hq => by
          have hr := hc (j + 1) c' (by simpa using hg) q hq
          have harith : i + (j + 1) = i + 1 + j := by omega
          rw [harith] at hr
          exact hr)
        t ht
      rcases hch with hin | hgood
      · rw [hfh] at hin
        simp only [List.mem_append, List.mem_singleton] at hin
        rcases hin with h1 | h1
        · exact Or.inl h1
        · subst h1
          refine Or.inr ⟨by simpa using hlen, ?_⟩
          have hr := hc 0 c rfl [] (by rw [if_pos hk]; rfl)
          simpa using hr
      · exact Or.inr hgood
    · have hexec : runSteps (stepsChildren lt path i (c :: rest)) st =
          runSteps (stepsChildren lt path (i + 1) rest)
            (runSteps (execSteps lt (path ++ [i]) c) st) := by
        rw [stepsChildren, if_neg hk, runSteps_append]
      rw [hexec] at ht
      obtain ⟨ts1, es1, ha1, he1, hs1, hm1, hp1, hq1, hr1⟩ :=
        execSteps_trace lt (path ++ [i]) c st
      have hch := stepsChildren_depth lt path (i + 1) rest
        (runSteps (execSteps lt (path ++ [i]) c) st) root
        (by rw [hs1]; exact hlen)
        (fun j c' hg q hq => by
          have hr := hc (j + 1) c' (by simpa using hg) q hq
          have harith : i + (j + 1) = i + 1 + j := by omega
          rw [harith] at hr
          exact hr)
        t ht
      rcases hch with hin | hgood
      · exact execSteps_depth lt (path ++ [i]) c st root
          (by rw [hlen]; simp)
          (fun q hq => by
            have hr := hc 0 c rfl q (by rw [if_neg hk]; exact hq)
            simpa [List.append_assoc] using hr)
          t hin
      · exact Or.inr hgood
end

/-- Claim C8: for every tracker recorded in a session, its `depth` equals the
number of its strict ancestors that were themselves instrumented (not filtered
out of the traversal) — the number of entered-but-not-yet-exited hooked nodes
at its entry time, with the non-filtered root at depth 0. -/
theorem tracker_depth_eq_instrumented_ancestors (lt : List Nat) (net : NNModule) :
    ∀ t ∈ (runSession lt net).all_trackers,
      t.depth = numInstrumentedStrictAncestors lt net t.path := by
  intro t ht
  have hd := execSteps_depth lt [] net
    { all_trackers := [], tracker_stack := [], events := [] } net rfl
    (fun q hq => by simpa using hq) t ht
  rcases hd with hin | ⟨hdep, hhook⟩
  · exact absurd hin (by simp)
  · rw [hdep, numInstrumented_eq_length lt net t.path hhook]

/-- Witness for C8's theorem: the inner `Linear` tracker of the doctest tree
(entered fifth, at path `[2, 0]`) has depth 2, the number of its instrumented
strict ancestors. -/
theorem tracker_depth_eq_instrumented_ancestors_witness :
    (⟨4, 2, true, [2, 0]⟩ : TrackerInfo) ∈ (runSession [] demoNet).all_trackers ∧
      (⟨4, 2, true, [2, 0]⟩ : TrackerInfo).depth =
        numInstrumentedStrictAncestors [] demoNet [2, 0] :=
  ⟨by decide,
    tracker_depth_eq_instrumented_ancestors [] demoNet ⟨4, 2, true, [2, 0]⟩ (by decide)⟩
